import Mathlib

/-
Verification development for the CWAS variant-categorization core
(cwas/core/categorization/categorizer.py and
cwas/core/configuration/settings.py), shallowly embedded in Lean 4.

A variant row of the annotated VCF table is embedded as `Variant`; the
five per-domain classifiers, the Cartesian-product combinator and the two
aggregation modes of `Categorizer` are embedded as executable functions.
Python's `float(...)` call on the MPC field can raise `ValueError`, so the
GENCODE classifier is Option-valued: `none` models the raised exception.
-/

/-- Bool test that `pat` occurs at the start of `hay` (character lists). -/
def starts_with : List Char → List Char → Bool
  | [], _ => true
  | _ :: _, [] => false
  | p :: ps, h :: hs => p == h && starts_with ps hs

/-- Bool test that `pat` occurs somewhere inside `hay` (character lists). -/
def sub_occurs (pat : List Char) : List Char → Bool
  | [] => starts_with pat []
  | h :: hs => starts_with pat (h :: hs) || sub_occurs pat hs

/-- Embedding of Python's `pat in hay` substring test on strings. -/
def pyIn (pat hay : String) : Bool :=
  sub_occurs pat.toList hay.toList

/-- Bool membership of a string in a list of strings (Python `x in set`). -/
def has_str (l : List String) (t : String) : Bool :=
  match l with
  | [] => false
  | s :: ss => s == t || has_str ss t

/-- Modelled from the spec: the repository's missing helper
`cwas.core.categorization.utils.get_idx_dict` maps every term of a domain
to its bit index, which the spec fixes to be the term's position in the
ordered term list ("a term's position in the sequence is its bit index").
`idx_of t dom` is the position of the first occurrence of `t` in `dom`
(for a duplicate-free domain, the spec's invariant, this is the dict's
value; a missing term yields `dom.length`, where Python would raise). -/
def idx_of (t : String) : List String → Nat
  | [] => 0
  | s :: ss => if s = t then 0 else idx_of t ss + 1

/-- Modelled from the spec: the repository's missing helper
`cwas.core.categorization.utils.extract_sublist_by_int` returns, per the
spec, the list of every term of the domain whose bit is set in the
annotation integer ("one list per domain, containing every term whose bit
is set"), in domain order. `extract_go` carries the current bit index. -/
def extract_go (n : Nat) (i : Nat) : List String → List String
  | [] => []
  | s :: ss =>
    if n.testBit i then s :: extract_go n (i + 1) ss else extract_go n (i + 1) ss

/-- Modelled from the spec: see `extract_go`. -/
def extract_sublist_by_int (terms : List String) (n : Nat) : List String :=
  extract_go n 0 terms

/-- Decimal-literal fragment of Python's `float` builtin. All digits test. -/
def all_digits (l : List Char) : Bool := l.all Char.isDigit

/-- Numeric value of a digit list (most significant first). -/
def digits_nat (l : List Char) : Nat :=
  l.foldl (fun a ch => a * 10 + (ch.toNat - 48)) 0

/-- Optional leading sign of a numeric literal. -/
def strip_sign : List Char → Int × List Char
  | '-' :: rest => (-1, rest)
  | '+' :: rest => (1, rest)
  | l => (1, l)

/-- Partial model of Python's `float(s)`: parses plain decimal literals
(optional sign, digits, optional fractional part) and returns `none` where
`float` raises `ValueError` on them. Exponent/inf/nan forms are outside
the model; no theorem below evaluates it on such inputs. -/
def pyFloat (s : String) : Option ℚ :=
  match strip_sign s.toList with
  | (sign, body) =>
    match body.dropWhile (fun ch => ch ≠ '.') with
    | [] =>
      if body ≠ [] ∧ all_digits body = true then
        some ((sign : ℚ) * (digits_nat body : ℚ))
      else none
    | _ :: fr =>
      if (body.takeWhile (fun ch => ch ≠ '.') ≠ [] ∨ fr ≠ []) ∧
          all_digits (body.takeWhile (fun ch => ch ≠ '.')) = true ∧
          all_digits fr = true then
        some ((sign : ℚ) *
          ((digits_nat (body.takeWhile (fun ch => ch ≠ '.')) : ℚ) +
            (digits_nat fr : ℚ) / (10 : ℚ) ^ fr.length))
      else none

/-- One row of the annotated VCF table, with the columns the categorizer
reads. `scores` and `regions` give the externally supplied 0/1 indicator
columns (keyed by term name) for the conservation and region domains;
the int32 width of the source's cast never binds for 0/1 indicators. -/
structure Variant where
  ref : String
  alt : String
  consequence : String
  symbol : String
  nearest : String
  lof : String
  lofFlag : String
  mpc : String
  scores : String → Nat
  regions : String → Nat

/-- The `category_domain` dict handed to `Categorizer`: one ordered term
list per annotation group. -/
structure CategoryDomain where
  variant_type : List String
  conservation : List String
  gene_list : List String
  gencode : List String
  region : List String

/-- The acting gene of a variant: the nearest-gene symbol for downstream
or intergenic consequences, else the variant's own gene symbol
(`categorizer.py`, the `gene = nearest if ... else symbol` expression). -/
def acting_gene (v : Variant) : String :=
  if pyIn "downstream_gene_variant" v.consequence ||
      pyIn "intergenic_variant" v.consequence then v.nearest else v.symbol

/-- Embedding of `Categorizer.annotate_variant_type` for one row. -/
def annotate_variant_type (dom : List String) (v : Variant) : Nat :=
  (if v.ref.length == 1 && v.alt.length == 1 then 2 ^ idx_of "SNV" dom
   else 2 ^ idx_of "Indel" dom) + 2 ^ idx_of "All" dom

/-- Accumulation loop shared by the conservation and region classifiers:
for each term of the domain other than the skipped catch-all, add
`2 ^ (term's bit index) * (term's indicator column value)`. The index
argument `i` is the bit index of the head of the remaining list. -/
def idx_sum (c : String → Nat) (skip : String) (i : Nat) : List String → Nat
  | [] => 0
  | s :: ss => (if s = skip then 0 else 2 ^ i * c s) + idx_sum c skip (i + 1) ss

/-- Embedding of `Categorizer.annotate_conservation` for one row. -/
def annotate_conservation (dom : List String) (v : Variant) : Nat :=
  idx_sum v.scores "All" 0 dom + 2 ^ idx_of "All" dom

/-- Embedding of `Categorizer.annotate_region` for one row. -/
def annotate_region (dom : List String) (v : Variant) : Nat :=
  idx_sum v.regions "Any" 0 dom + 2 ^ idx_of "Any" dom

/-- Membership accumulation loop of the gene-list classifier: for each
term of the domain that the resolved gene's membership set contains, add
`2 ^ (term's bit index)`. -/
def member_sum (gset : List String) (i : Nat) : List String → Nat
  | [] => 0
  | s :: ss => (if has_str gset s then 2 ^ i else 0) + member_sum gset (i + 1) ss

/-- Embedding of `Categorizer.annotate_gene_list` for one row. The
source's `annotation_int_dict` cache is never written to, so every row
recomputes; the `if gene_list_set:` guard skips empty membership sets. -/
def annotate_gene_list (dom : List String) (gm : String → List String)
    (v : Variant) : Nat :=
  (if gm (acting_gene v) = [] then 0
   else member_sum (gm (acting_gene v)) 0 dom) + 2 ^ idx_of "Any" dom

/-- The loss-of-function evidence condition of the GENCODE classifier:
high-confidence call with empty or SINGLE_EXON flag. -/
def lof_ok (v : Variant) : Bool :=
  v.lof == "HC" && (v.lofFlag == "SINGLE_EXON" || v.lofFlag == "")

/-- The MPC guard of the missense branch: Python evaluates
`len(mpc)!=0 and mpc!='NA' and float(mpc)>=2` left to right, so `float`
is reached only for a non-empty, non-"NA" string; `none` models the
`ValueError` it raises on a malformed one. -/
def mpc_damaging (m : String) : Option Bool :=
  if m.length != 0 && m != "NA" then (pyFloat m).map (fun q => decide (2 ≤ q))
  else some false

/-- Coding-path portion of `Categorizer.annotate_gencode` for one row:
returns the accumulated annotation integer together with the
`is_in_coding` flag, or `none` when the MPC parse raises. -/
def gencode_core (dom : List String) (gm : String → List String)
    (v : Variant) : Option (Nat × Bool) :=
  if has_str (gm (acting_gene v)) "ProteinCoding" then
    if (pyIn "stop_gained" v.consequence || pyIn "splice_donor" v.consequence ||
        pyIn "splice_acceptor" v.consequence) && lof_ok v then
      some (2 ^ idx_of "CodingRegion" dom + 2 ^ idx_of "LoFRegion" dom, true)
    else if pyIn "frameshift_variant" v.consequence && lof_ok v then
      some (2 ^ idx_of "CodingRegion" dom + 2 ^ idx_of "LoFRegion" dom +
        2 ^ idx_of "FrameshiftRegion" dom, true)
    else if pyIn "missense_variant" v.consequence ||
        pyIn "protein_altering_variant" v.consequence ||
        pyIn "start_lost" v.consequence || pyIn "stop_lost" v.consequence then
      (mpc_damaging v.mpc).map fun d =>
        (2 ^ idx_of "CodingRegion" dom + 2 ^ idx_of "MissenseRegion" dom +
          (if d then 2 ^ idx_of "DamagingMissenseRegion" dom else 0), true)
    else if pyIn "inframe_deletion" v.consequence ||
        pyIn "inframe_insertion" v.consequence then
      some (2 ^ idx_of "CodingRegion" dom + 2 ^ idx_of "InFrameRegion" dom, true)
    else if pyIn "synonymous_variant" v.consequence then
      some (2 ^ idx_of "CodingRegion" dom + 2 ^ idx_of "SilentRegion" dom, true)
    else if !pyIn "stop_retained_variant" v.consequence &&
        !pyIn "incomplete_terminal_codon_variant" v.consequence &&
        !pyIn "protein_altering_variant" v.consequence &&
        !pyIn "coding_sequence_variant" v.consequence &&
        !pyIn "stop_gained" v.consequence &&
        !pyIn "splice_donor" v.consequence &&
        !pyIn "splice_acceptor" v.consequence &&
        !pyIn "frameshift_variant" v.consequence then
      some (0, false)
    else some (2 ^ idx_of "CodingRegion" dom, true)
  else some (0, false)

/-- Non-coding portion of `Categorizer.annotate_gencode` for one row,
applied to the coding-path outcome; also adds the final catch-all bit. -/
def gencode_noncoding_step (dom : List String) (gm : String → List String)
    (v : Variant) (p : Nat × Bool) : Nat :=
  (if p.2 then p.1
   else if pyIn "_UTR_" v.consequence then
     p.1 + 2 ^ idx_of "NoncodingRegion" dom + 2 ^ idx_of "UTRsRegion" dom
   else if pyIn "upstream_gene_variant" v.consequence then
     p.1 + 2 ^ idx_of "NoncodingRegion" dom + 2 ^ idx_of "PromoterRegion" dom
   else if pyIn "intron_variant" v.consequence then
     p.1 + 2 ^ idx_of "NoncodingRegion" dom + 2 ^ idx_of "IntronRegion" dom
   else if pyIn "splice_region_variant" v.consequence then
     p.1 + 2 ^ idx_of "NoncodingRegion" dom +
       2 ^ idx_of "SpliceSiteNoncanonRegion" dom
   else if pyIn "downstream_gene_variant" v.consequence ||
       pyIn "intergenic_variant" v.consequence then
     p.1 + 2 ^ idx_of "NoncodingRegion" dom + 2 ^ idx_of "IntergenicRegion" dom
   else if !has_str (gm (acting_gene v)) "ProteinCoding" then
     (if has_str (gm (acting_gene v)) "lincRNA" then
       p.1 + 2 ^ idx_of "NoncodingRegion" dom + 2 ^ idx_of "lincRnaRegion" dom
     else
       p.1 + 2 ^ idx_of "NoncodingRegion" dom +
         2 ^ idx_of "OtherTranscriptRegion" dom)
   else p.1 + 2 ^ idx_of "NoncodingRegion" dom) + 2 ^ idx_of "Any" dom

/-- Embedding of `Categorizer.annotate_gencode` for one row; `none` means
the row raised while parsing the MPC field. -/
def annotate_gencode (dom : List String) (gm : String → List String)
    (v : Variant) : Option Nat :=
  (gencode_core dom gm v).map (gencode_noncoding_step dom gm v)

/-- Embedding of `Categorizer.parse_annotation_int`. -/
def parse_annotation_int (dom : List String) (n : Nat) : List String :=
  extract_sublist_by_int dom n

/-- The five parsed term lists yielded for one row by
`Categorizer.annotate_each_variant`, in the source's yield order
(variant_type, gene_list, conservation, gencode, region); `none` when the
GENCODE classifier raised on the row. -/
def term_lists (cd : CategoryDomain) (gm : String → List String)
    (v : Variant) : Option (List (List String)) :=
  (annotate_gencode cd.gencode gm v).map fun g =>
    [parse_annotation_int cd.variant_type (annotate_variant_type cd.variant_type v),
     parse_annotation_int cd.gene_list (annotate_gene_list cd.gene_list gm v),
     parse_annotation_int cd.conservation (annotate_conservation cd.conservation v),
     parse_annotation_int cd.gencode g,
     parse_annotation_int cd.region (annotate_region cd.region v)]

/-- Concatenation of a list of lists. -/
def joinAll {α : Type} : List (List α) → List α
  | [] => []
  | l :: ls => l ++ joinAll ls

/-- Embedding of `itertools.product(*lists)`: the leftmost list varies
slowest, exactly as the generator in `categorize_variant` consumes it. -/
def product_lists : List (List String) → List (List String)
  | [] => [[]]
  | l :: ls => joinAll (l.map fun x => (product_lists ls).map fun t => x :: t)

/-- The `"_".join(combination)` category keys generated for one row. -/
def variant_keys (cd : CategoryDomain) (gm : String → List String)
    (v : Variant) : Option (List String) :=
  (term_lists cd gm v).map fun ls =>
    (product_lists ls).map (String.intercalate "_")

/-- Cons through `Option`: defined only when both parts are defined. -/
def opt_cons {α : Type} : Option α → Option (List α) → Option (List α)
  | some x, some xs => some (x :: xs)
  | _, _ => none

/-- Category keys of every row of the dataset, row by row; `none` when
any row raised (the source computes all rows before aggregation). -/
def variant_keys_list (cd : CategoryDomain) (gm : String → List String) :
    List Variant → Option (List (List String))
  | [] => some []
  | v :: vs => opt_cons (variant_keys cd gm v) (variant_keys_list cd gm vs)

/-- Number of occurrences of a key in a list of keys. -/
def kcount (k : String) : List String → Nat
  | [] => 0
  | s :: ss => (if s = k then 1 else 0) + kcount k ss

/-- Embedding of `Categorizer.categorize_variant` (count mode): the final
defaultdict sends each category key to the number of increments it
received, i.e. its number of occurrences among all generated keys. -/
def categorize_variant (cd : CategoryDomain) (gm : String → List String)
    (vcf : List Variant) : Option (String → Nat) :=
  (variant_keys_list cd gm vcf).map fun kss => fun key => kcount key (joinAll kss)

/-- Embedding of `Categorizer.get_intersection` (co-occurrence mode): the
entry at `(k1, k2)` receives, per row, one increment for every ordered
pair of generated combinations joining to `k1` and `k2` respectively. -/
def get_intersection (cd : CategoryDomain) (gm : String → List String)
    (vcf : List Variant) : Option (String → String → Nat) :=
  (variant_keys_list cd gm vcf).map fun kss => fun k1 k2 =>
    (kss.map fun ks => kcount k1 ks * kcount k2 ks).sum

/-- Count-mode total of one category key, `none` when aggregation raised. -/
def category_count (cd : CategoryDomain) (gm : String → List String)
    (vcf : List Variant) (key : String) : Option Nat :=
  (categorize_variant cd gm vcf).map fun f => f key

/-- Diagonal co-occurrence entry of one category key. -/
def category_diag (cd : CategoryDomain) (gm : String → List String)
    (vcf : List Variant) (key : String) : Option Nat :=
  (get_intersection cd gm vcf).map fun f => f key key

/-- The default `variant_type` domain of `settings.py`. -/
def default_variant_type : List String := ["All", "SNV", "Indel"]

/-- The default `conservation` domain of `settings.py` (extended at
configuration time by BigWig keys appended after "All"). -/
def default_conservation : List String := ["All"]

/-- The default `gene_list` domain of `settings.py` (extended at
configuration time by gene-matrix categories appended after "Any"). -/
def default_gene_list : List String := ["Any"]

/-- The default `gencode` domain of `settings.py`, in source order. -/
def default_gencode : List String :=
  ["Any", "CodingRegion", "FrameshiftRegion", "InFrameRegion", "SilentRegion",
   "LoFRegion", "DamagingMissenseRegion", "MissenseRegion", "NoncodingRegion",
   "SpliceSiteNoncanonRegion", "IntronRegion", "PromoterRegion",
   "IntergenicRegion", "UTRsRegion", "lincRnaRegion", "OtherTranscriptRegion"]

/-- The default `region` domain of `settings.py` (extended at
configuration time by BED keys appended after "Any"). -/
def default_region : List String := ["Any"]

/-- The default domain dictionary of `settings.py`. -/
def default_domains : CategoryDomain :=
  ⟨default_variant_type, default_conservation, default_gene_list,
   default_gencode, default_region⟩

/-- The `("variant_type", "gencode")` entry of `_redundant_domain_pairs`
in `settings.py`. -/
def redundant_variant_type_gencode : List (String × String) :=
  [("All", "FrameshiftRegion"), ("All", "InFrameRegion"),
   ("All", "DamagingMissenseRegion"), ("All", "MissenseRegion"),
   ("All", "SilentRegion"), ("Indel", "DamagingMissenseRegion"),
   ("Indel", "MissenseRegion"), ("Indel", "SilentRegion"),
   ("SNV", "FrameshiftRegion"), ("SNV", "InFrameRegion")]

/-- The `("gene_list", "gencode")` entry of `_redundant_domain_pairs`
in `settings.py`. -/
def redundant_gene_list_gencode : List (String × String) :=
  [("Any", "CodingRegion"), ("Any", "FrameshiftRegion"),
   ("Any", "InFrameRegion"), ("Any", "LoFRegion"),
   ("Any", "DamagingMissenseRegion"), ("Any", "MissenseRegion"),
   ("Any", "SilentRegion"), ("Any", "lincRnaRegion"), ("lincRNA", "Any")]

/-- Follows the spec's words for the non-coding sub-region rule (C4, as
amended): the single extra sub-region contribution chosen by first match
on the consequence string — UTR marker, upstream gene, intron,
splice region, downstream gene or intergenic — and otherwise, only when
the acting gene is not protein-coding, lincRNA membership or the
other-transcript fallback; a reclassified protein-coding gene matching
none of the five patterns contributes no sub-region bit. Bit positions
are those of the default GENCODE domain. -/
def noncoding_sub (gm : String → List String) (v : Variant) : Nat :=
  if pyIn "_UTR_" v.consequence then 2 ^ 13
  else if pyIn "upstream_gene_variant" v.consequence then 2 ^ 11
  else if pyIn "intron_variant" v.consequence then 2 ^ 10
  else if pyIn "splice_region_variant" v.consequence then 2 ^ 9
  else if pyIn "downstream_gene_variant" v.consequence ||
      pyIn "intergenic_variant" v.consequence then 2 ^ 12
  else if !has_str (gm (acting_gene v)) "ProteinCoding" then
    (if has_str (gm (acting_gene v)) "lincRNA" then 2 ^ 14 else 2 ^ 15)
  else 0

/-- Gene matrix with one protein-coding gene. -/
def gm_pc : String → List String :=
  fun g => if g = "GENE1" then ["ProteinCoding"] else []

/-- Gene matrix with no entries. -/
def gm_empty : String → List String := fun _ => []

/-- SNV frameshift row: single-base alleles, high-confidence LoF. -/
def v_fs_snv : Variant :=
  ⟨"A", "T", "frameshift_variant", "GENE1", "N1", "HC", "", "",
    fun _ => 0, fun _ => 0⟩

/-- Indel frameshift row of the spec's concrete scenario. -/
def v_fs_indel : Variant :=
  ⟨"AT", "A", "frameshift_variant", "GENE1", "N1", "HC", "", "",
    fun _ => 0, fun _ => 0⟩

/-- Missense row whose MPC field is a malformed numeric string. -/
def v_mis_bad : Variant :=
  ⟨"A", "T", "missense_variant", "GENE1", "N1", "", "", "abc",
    fun _ => 0, fun _ => 0⟩

/-- Missense row with an empty MPC field. -/
def v_mis_nompc : Variant :=
  ⟨"A", "T", "missense_variant", "GENE1", "N1", "", "", "",
    fun _ => 0, fun _ => 0⟩

/-- Row on a protein-coding gene whose consequence matches no coding and
no non-coding keyword (reclassified with no sub-region). -/
def v_misc : Variant :=
  ⟨"A", "T", "mature_miRNA_variant", "GENE1", "N1", "", "", "",
    fun _ => 0, fun _ => 0⟩

/-- Intron row. -/
def v_intron : Variant :=
  ⟨"A", "T", "intron_variant", "GENE1", "N1", "", "", "",
    fun _ => 0, fun _ => 0⟩

/-- Featureless SNV row. -/
def v_plain : Variant :=
  ⟨"A", "T", "x", "GENE1", "N1", "", "", "", fun _ => 0, fun _ => 0⟩

/-- Featureless indel row. -/
def v_plain_indel : Variant :=
  ⟨"AT", "A", "x", "GENE1", "N1", "", "", "", fun _ => 0, fun _ => 0⟩

/-- Row carrying a conservation and a region indicator. -/
def v_cons : Variant :=
  ⟨"A", "T", "x", "GENE1", "N1", "", "", "",
    fun s => if s = "phyloP46way" then 1 else 0,
    fun s => if s = "EncodeDNase" then 1 else 0⟩

/-- Configured domains whose term names make two distinct combinations
join to the same underscore-separated category key. -/
def cd_clash : CategoryDomain :=
  ⟨default_variant_type, ["All", "B_All"], ["Any", "A", "A_B"],
    default_gencode, ["Any"]⟩

/-- Gene matrix for the key-collision configuration. -/
def gm_clash : String → List String :=
  fun g => if g = "G1" then ["A", "A_B"] else []

/-- Row that is flagged for the colliding conservation term. -/
def v_clash : Variant :=
  ⟨"A", "T", "x", "G1", "N1", "", "", "",
    fun s => if s = "B_All" then 1 else 0, fun _ => 0⟩

/-- Binary value of a coefficient list, least-significant coefficient
first: the annotation integer a loop builds when the i-th term of the
list contributes `c term` at bit i. -/
def bitsVal (c : String → Nat) : List String → Nat
  | [] => 0
  | s :: ss => c s + 2 * bitsVal c ss

/-- The position-indexed accumulation loop is the binary value of the
coefficient list shifted by the starting bit index. -/
theorem idx_sum_eq_bitsVal (c : String → Nat) (skip : String) :
    ∀ (l : List String) (i : Nat),
      idx_sum c skip i l =
        2 ^ i * bitsVal (fun s => if s = skip then 0 else c s) l := by
  intro l
  induction l with
  | nil => intro i; simp [idx_sum, bitsVal]
  | cons s ss ih =>
    intro i
    rw [idx_sum, bitsVal, ih (i + 1)]
    by_cases hs : s = skip <;> simp [hs] <;> ring

/-- The gene-list membership loop is likewise a shifted binary value. -/
theorem member_sum_eq_bitsVal (gset : List String) :
    ∀ (l : List String) (i : Nat),
      member_sum gset i l =
        2 ^ i * bitsVal (fun s => if has_str gset s then 1 else 0) l := by
  intro l
  induction l with
  | nil => intro i; simp [member_sum, bitsVal]
  | cons s ss ih =>
    intro i
    rw [member_sum, bitsVal, ih (i + 1)]
    by_cases hs : has_str gset s = true <;> simp [hs] <;> ring

/-- Bit k of a binary value of 0/1 coefficients is the k-th coefficient. -/
theorem bitsVal_testBit (c : String → Nat) :
    ∀ (l : List String), (∀ s ∈ l, c s ≤ 1) →
      ∀ (k : Nat) (hk : k < l.length),
        ((bitsVal c l).testBit k = true ↔ c (l.get ⟨k, hk⟩) = 1) := by
  intro l
  induction l with
  | nil => intro _ k hk; exact absurd hk (by simp)
  | cons s ss ih =>
    intro hc k hk
    have hcs : c s ≤ 1 := hc s (by simp)
    cases k with
    | zero =>
      have hmod : (c s + 2 * bitsVal c ss) % 2 = c s := by omega
      simp only [bitsVal, Nat.testBit_zero, decide_eq_true_eq, hmod]
      exact Iff.rfl
    | succ k =>
      have hdiv : (c s + 2 * bitsVal c ss) / 2 = bitsVal c ss := by omega
      rw [bitsVal, Nat.testBit_add_one, hdiv]
      exact ih (fun t ht => hc t (by simp [ht])) k (by simpa using hk)

/-- A binary value of 0/1 coefficients is bounded by 2 ^ length. -/
theorem bitsVal_lt (c : String → Nat) :
    ∀ (l : List String), (∀ s ∈ l, c s ≤ 1) → bitsVal c l < 2 ^ l.length := by
  intro l
  induction l with
  | nil => intro _; simp [bitsVal]
  | cons s ss ih =>
    intro hc
    have h1 : bitsVal c ss < 2 ^ ss.length := ih fun t ht => hc t (by simp [ht])
    have h2 : c s ≤ 1 := hc s (by simp)
    simp only [bitsVal, List.length_cons, pow_succ]
    omega

/-- Odd numbers have their lowest bit set. -/
theorem testBit_zero_of_odd (n : Nat) (h : n % 2 = 1) :
    n.testBit 0 = true := by
  simp [Nat.testBit_zero, h]

/-- First position of the head element. -/
theorem idx_of_head (t : String) (l : List String) : idx_of t (t :: l) = 0 := by
  simp [idx_of]

/-- First position below a differing head. -/
theorem idx_of_cons_ne (s t : String) (l : List String) (h : s ≠ t) :
    idx_of t (s :: l) = idx_of t l + 1 := by
  simp [idx_of, h]

/-- The position of a present term is inside the list. -/
theorem idx_of_lt_length (t : String) :
    ∀ l : List String, t ∈ l → idx_of t l < l.length := by
  intro l
  induction l with
  | nil => intro h; exact absurd h (by simp)
  | cons s ss ih =>
    intro h
    by_cases hs : s = t
    · simp [idx_of, hs]
    · rw [idx_of_cons_ne s t ss hs]
      have : t ∈ ss := by
        rcases List.mem_cons.mp h with h1 | h1
        · exact absurd h1.symm hs
        · exact h1
      simpa using ih this

/-- The list at the position of a present term holds that term. -/
theorem get_idx_of (t : String) :
    ∀ (l : List String) (_ : t ∈ l) (hlt : idx_of t l < l.length),
      l.get ⟨idx_of t l, hlt⟩ = t := by
  intro l
  induction l with
  | nil => intro h _; exact absurd h (by simp)
  | cons s ss ih =>
    intro h hlt
    by_cases hs : s = t
    · simp [idx_of, hs]
    · have hmem : t ∈ ss := by
        rcases List.mem_cons.mp h with h1 | h1
        · exact absurd h1.symm hs
        · exact h1
      have hlt2 : idx_of t ss < ss.length := idx_of_lt_length t ss hmem
      simp only [idx_of, hs, if_false]
      exact ih hmem hlt2

/-- Counting distributes over appending. -/
theorem kcount_append (k : String) :
    ∀ l1 l2 : List String, kcount k (l1 ++ l2) = kcount k l1 + kcount k l2 := by
  intro l1 l2
  induction l1 with
  | nil => simp [kcount]
  | cons s ss ih =>
    show (if s = k then 1 else 0) + kcount k (ss ++ l2) =
      ((if s = k then 1 else 0) + kcount k ss) + kcount k l2
    rw [ih]
    omega

/-- A present key is counted at least once. -/
theorem kcount_pos (k : String) :
    ∀ l : List String, k ∈ l → 0 < kcount k l := by
  intro l
  induction l with
  | nil => intro h; exact absurd h (by simp)
  | cons s ss ih =>
    intro h
    by_cases hs : s = k
    · simp [kcount, hs]
    · have : k ∈ ss := by
        rcases List.mem_cons.mp h with h1 | h1
        · exact absurd h1.symm hs
        · exact h1
      have := ih this
      simp only [kcount, hs, if_false]
      omega

/-- An absent key is counted zero times. -/
theorem kcount_eq_zero (k : String) :
    ∀ l : List String, k ∉ l → kcount k l = 0 := by
  intro l
  induction l with
  | nil => intro _; simp [kcount]
  | cons s ss ih =>
    intro h
    have hs : s ≠ k := fun e => h (by simp [e])
    have : k ∉ ss := fun m => h (by simp [m])
    simp [kcount, hs, ih this]

/-- In a duplicate-free key list, a key is counted at most once. -/
theorem kcount_le_one (k : String) :
    ∀ l : List String, l.Nodup → kcount k l ≤ 1 := by
  intro l
  induction l with
  | nil => intro _; simp [kcount]
  | cons s ss ih =>
    intro h
    rcases List.nodup_cons.mp h with ⟨hn, hnd⟩
    by_cases hs : s = k
    · subst hs
      simp [kcount, kcount_eq_zero s ss hn]
    · simp only [kcount, hs, if_false]
      have := ih hnd
      omega

/-- Counting a key in a concatenation sums the per-list counts. -/
theorem kcount_joinAll (k : String) :
    ∀ kss : List (List String),
      kcount k (joinAll kss) = (kss.map (kcount k)).sum := by
  intro kss
  induction kss with
  | nil => simp [joinAll, kcount]
  | cons ks rest ih => simp [joinAll, kcount_append, ih]

/-- Members of the concatenated lists are members of the concatenation. -/
theorem mem_joinAll {α : Type} (x : α) :
    ∀ (lss : List (List α)) (l : List α), l ∈ lss → x ∈ l → x ∈ joinAll lss := by
  intro lss
  induction lss with
  | nil => intro l h _; exact absurd h (by simp)
  | cons l0 rest ih =>
    intro l h hx
    rcases List.mem_cons.mp h with h1 | h1
    · subst h1; exact List.mem_append.mpr (Or.inl hx)
    · exact List.mem_append.mpr (Or.inr (ih l h1 hx))

/-- Length of a concatenation is the sum of the lengths. -/
theorem joinAll_length {α : Type} :
    ∀ lss : List (List α), (joinAll lss).length = (lss.map List.length).sum := by
  intro lss
  induction lss with
  | nil => simp [joinAll]
  | cons l rest ih => simp [joinAll, ih]

/-- Sum of a constant map. -/
theorem sum_map_const {α : Type} (n : Nat) :
    ∀ l : List α, (l.map fun _ => n).sum = l.length * n := by
  intro l
  induction l with
  | nil => simp
  | cons x xs ih => simp [ih]; ring

/-- Lengths of the per-head blocks of the Cartesian product. -/
theorem map_cons_length_sum (P : List (List String)) :
    ∀ l : List String,
      (((l.map fun x => P.map fun t => x :: t).map List.length)).sum =
        l.length * P.length := by
  intro l
  induction l with
  | nil => simp
  | cons x xs ih =>
    simp only [List.map_cons, List.sum_cons, List.length_map, List.length_cons]
    rw [ih]
    ring

/-- The Cartesian product has as many combinations as the product of the
list lengths. -/
theorem product_lists_length :
    ∀ ls : List (List String),
      (product_lists ls).length = (ls.map List.length).prod := by
  intro ls
  induction ls with
  | nil => simp [product_lists]
  | cons l rest ih =>
    simp only [product_lists, joinAll_length, List.map_cons, List.prod_cons]
    rw [map_cons_length_sum, ih]

/-- Bool membership agrees with list membership. -/
theorem has_str_iff (l : List String) (t : String) :
    has_str l t = true ↔ t ∈ l := by
  induction l with
  | nil => simp [has_str]
  | cons s ss ih =>
    simp only [has_str, Bool.or_eq_true, beq_iff_eq, ih, List.mem_cons]
    tauto

/-- Bit k+1 of an odd number comes from bit k of its half. -/
theorem testBit_two_mul_add_one (b k : Nat) :
    (2 * b + 1).testBit (k + 1) = b.testBit k := by
  rw [Nat.testBit_add_one]
  congr 1
  omega

/-- The conservation classifier on a domain headed by its catch-all term
is an odd number whose upper bits are the indicator coefficients. -/
theorem annotate_conservation_head (rest : List String) (v : Variant) :
    annotate_conservation ("All" :: rest) v =
      2 * bitsVal (fun s => if s = "All" then 0 else v.scores s) rest + 1 := by
  unfold annotate_conservation
  rw [idx_sum, idx_of_head, idx_sum_eq_bitsVal]
  simp

/-- The region classifier on a domain headed by its catch-all term. -/
theorem annotate_region_head (rest : List String) (v : Variant) :
    annotate_region ("Any" :: rest) v =
      2 * bitsVal (fun s => if s = "Any" then 0 else v.regions s) rest + 1 := by
  unfold annotate_region
  rw [idx_sum, idx_of_head, idx_sum_eq_bitsVal]
  simp

/-- Pointwise equal coefficients give equal binary values. -/
theorem bitsVal_congr (c1 c2 : String → Nat) :
    ∀ l : List String, (∀ s ∈ l, c1 s = c2 s) → bitsVal c1 l = bitsVal c2 l := by
  intro l
  induction l with
  | nil => intro _; rfl
  | cons s ss ih =>
    intro h
    simp only [bitsVal, h s (by simp), ih fun t ht => h t (by simp [ht])]

/-- All-zero coefficients give a zero binary value. -/
theorem bitsVal_zero : ∀ l : List String, bitsVal (fun _ => 0) l = 0 := by
  intro l
  induction l with
  | nil => rfl
  | cons s ss ih => simp [bitsVal, ih]

/-- The gene-list classifier on a domain headed by its catch-all term,
for a variant whose resolved memberships do not contain the catch-all. -/
theorem annotate_gene_list_head (rest : List String)
    (gm : String → List String) (v : Variant)
    (hany : "Any" ∉ gm (acting_gene v)) :
    annotate_gene_list ("Any" :: rest) gm v =
      2 * bitsVal
        (fun s => if has_str (gm (acting_gene v)) s then 1 else 0) rest + 1 := by
  unfold annotate_gene_list
  rw [idx_of_head]
  by_cases hg : gm (acting_gene v) = []
  · have hz : bitsVal
        (fun s => if has_str (gm (acting_gene v)) s then 1 else 0) rest = 0 := by
      rw [bitsVal_congr _ (fun _ => 0) rest (by intro s _; simp [hg, has_str]),
        bitsVal_zero]
    rw [if_pos hg, hz]
    norm_num
  · have hhs : has_str (gm (acting_gene v)) "Any" = false := by
      rcases h : has_str (gm (acting_gene v)) "Any" with _ | _
      · rfl
      · exact absurd ((has_str_iff _ _).mp h) hany
    rw [if_neg hg, member_sum, hhs, member_sum_eq_bitsVal]
    simp

/-- Exhaustive outcomes of the coding path of the GENCODE classifier over
the default GENCODE domain: the accumulated integer and `is_in_coding`
flag always land in this list when no exception is raised. -/
theorem gencode_core_cases (gm : String → List String) (v : Variant)
    (p : Nat × Bool) (h : gencode_core default_gencode gm v = some p) :
    p ∈ [(2, true), (34, true), (38, true), (194, true), (130, true),
      (10, true), (18, true), (0, false)] := by
  unfold gencode_core at h
  repeat' split at h
  any_goals (injection h with h; subst h; decide)
  rcases hmd : mpc_damaging v.mpc with _ | d
  · rw [hmd] at h
    exact absurd h (by simp)
  · rw [hmd] at h
    simp only [Option.map_some'] at h
    injection h with h
    subst h
    cases d <;> decide

/-- Exhaustive outcomes of the non-coding path over the default GENCODE
domain, starting from the cleared coding state. -/
theorem gencode_noncoding_cases (gm : String → List String) (v : Variant) :
    gencode_noncoding_step default_gencode gm v (0, false) ∈
      ([257, 8449, 2305, 1281, 769, 4353, 16641, 33025] : List Nat) := by
  unfold gencode_noncoding_step
  repeat' split
  all_goals first | decide | simp_all

/-- On the coding path the non-coding step only adds the catch-all bit. -/
theorem gencode_noncoding_coding (gm : String → List String) (v : Variant)
    (a : Nat) :
    gencode_noncoding_step default_gencode gm v (a, true) = a + 1 := by
  have h0 : (2 : Nat) ^ idx_of "Any" default_gencode = 1 := by decide
  unfold gencode_noncoding_step
  rw [h0]
  simp

/-- Exhaustive outcomes of the whole GENCODE classifier over the default
GENCODE domain. -/
theorem annotate_gencode_cases (gm : String → List String) (v : Variant)
    (n : Nat) (h : annotate_gencode default_gencode gm v = some n) :
    n ∈ ([3, 35, 39, 195, 131, 11, 19, 257, 8449, 2305, 1281, 769, 4353,
      16641, 33025] : List Nat) := by
  unfold annotate_gencode at h
  rcases hc : gencode_core default_gencode gm v with _ | p
  · rw [hc] at h
    exact absurd h (by simp)
  · rw [hc] at h
    simp only [Option.map_some'] at h
    injection h with h
    have hp := gencode_core_cases gm v p hc
    simp only [List.mem_cons, List.not_mem_nil, or_false] at hp
    rcases hp with rfl | rfl | rfl | rfl | rfl | rfl | rfl | rfl
    all_goals first
      | (rw [gencode_noncoding_coding] at h; subst h; decide)
      | (have hv := gencode_noncoding_cases gm v
         rw [h] at hv
         simp only [List.mem_cons, List.not_mem_nil, or_false] at hv
         rcases hv with rfl | rfl | rfl | rfl | rfl | rfl | rfl | rfl <;> decide)

/-- Defined cons through Option. -/
theorem opt_cons_some {α : Type} (x : α) (xs : List α) :
    opt_cons (some x) (some xs) = some (x :: xs) := rfl

/-- Undefined head propagates. -/
theorem opt_cons_none_left {α : Type} (o : Option (List α)) :
    opt_cons none o = none := by
  cases o <;> rfl

/-- Undefined tail propagates. -/
theorem opt_cons_none_right {α : Type} (o : Option α) :
    opt_cons o (none : Option (List α)) = none := by
  cases o <;> rfl

/-- A successful key-list computation contains the keys of every row. -/
theorem vkl_mem (cd : CategoryDomain) (gm : String → List String) :
    ∀ (vcf : List Variant) (kss : List (List String)) (v : Variant)
      (ks : List String),
      variant_keys_list cd gm vcf = some kss → v ∈ vcf →
      variant_keys cd gm v = some ks → ks ∈ kss := by
  intro vcf
  induction vcf with
  | nil => intro kss v ks _ hv _; exact absurd hv (by simp)
  | cons w ws ih =>
    intro kss v ks h hv hks
    rcases hw : variant_keys cd gm w with _ | ks0
    · rw [variant_keys_list, hw, opt_cons_none_left] at h
      exact absurd h (by simp)
    · rcases hws : variant_keys_list cd gm ws with _ | kss0
      · rw [variant_keys_list, hw, hws, opt_cons_none_right] at h
        exact absurd h (by simp)
      · rw [variant_keys_list, hw, hws, opt_cons_some] at h
        injection h with h
        subst h
        rcases List.mem_cons.mp hv with rfl | hv2
        · rw [hw] at hks
          injection hks with hks
          subst hks
          simp
        · exact List.mem_cons.mpr (Or.inr (ih kss0 v ks hws hv2 hks))

/-- Every member of a successful key-list computation is the key list of
some row. -/
theorem vkl_mem_rev (cd : CategoryDomain) (gm : String → List String) :
    ∀ (vcf : List Variant) (kss : List (List String)),
      variant_keys_list cd gm vcf = some kss →
      ∀ ks ∈ kss, ∃ v ∈ vcf, variant_keys cd gm v = some ks := by
  intro vcf
  induction vcf with
  | nil =>
    intro kss h ks hks
    injection h with h
    subst h
    exact absurd hks (by simp)
  | cons w ws ih =>
    intro kss h ks hks
    rcases hw : variant_keys cd gm w with _ | ks0
    · rw [variant_keys_list, hw, opt_cons_none_left] at h
      exact absurd h (by simp)
    · rcases hws : variant_keys_list cd gm ws with _ | kss0
      · rw [variant_keys_list, hw, hws, opt_cons_none_right] at h
        exact absurd h (by simp)
      · rw [variant_keys_list, hw, hws, opt_cons_some] at h
        injection h with h
        subst h
        rcases List.mem_cons.mp hks with rfl | hks2
        · exact ⟨w, by simp, hw⟩
        · rcases ih kss0 hws ks hks2 with ⟨v, hv, hvk⟩
          exact ⟨v, by simp [hv], hvk⟩

/-- Permuting the rows permutes (or equally fails) the per-row key lists. -/
theorem vkl_perm (cd : CategoryDomain) (gm : String → List String)
    {vs vs' : List Variant} (h : vs.Perm vs') :
    (variant_keys_list cd gm vs = none ∧ variant_keys_list cd gm vs' = none) ∨
    ∃ kss kss', variant_keys_list cd gm vs = some kss ∧
      variant_keys_list cd gm vs' = some kss' ∧ kss.Perm kss' := by
  induction h with
  | nil => exact Or.inr ⟨[], [], rfl, rfl, List.Perm.nil⟩
  | cons x hp ih =>
    rcases hx : variant_keys cd gm x with _ | ks
    · exact Or.inl ⟨by rw [variant_keys_list, hx, opt_cons_none_left],
        by rw [variant_keys_list, hx, opt_cons_none_left]⟩
    · rcases ih with ⟨h1, h2⟩ | ⟨kss, kss', e1, e2, p⟩
      · exact Or.inl ⟨by rw [variant_keys_list, hx, h1, opt_cons_none_right],
          by rw [variant_keys_list, hx, h2, opt_cons_none_right]⟩
      · exact Or.inr ⟨ks :: kss, ks :: kss',
          by rw [variant_keys_list, hx, e1, opt_cons_some],
          by rw [variant_keys_list, hx, e2, opt_cons_some],
          List.Perm.cons ks p⟩
  | swap x y l =>
    rcases hx : variant_keys cd gm x with _ | kx
    · refine Or.inl ⟨?_, ?_⟩
      · rw [variant_keys_list, variant_keys_list, hx, opt_cons_none_left,
          opt_cons_none_right]
      · rw [variant_keys_list, hx, opt_cons_none_left]
    · rcases hy : variant_keys cd gm y with _ | ky
      · refine Or.inl ⟨?_, ?_⟩
        · rw [variant_keys_list, hy, opt_cons_none_left]
        · rw [variant_keys_list, variant_keys_list, hy, opt_cons_none_left,
            opt_cons_none_right]
      · rcases hl : variant_keys_list cd gm l with _ | kss
        · refine Or.inl ⟨?_, ?_⟩
          · rw [variant_keys_list, variant_keys_list, hx, hl,
              opt_cons_none_right, opt_cons_none_right]
          · rw [variant_keys_list, variant_keys_list, hy, hl,
              opt_cons_none_right, opt_cons_none_right]
        · exact Or.inr ⟨ky :: kx :: kss, kx :: ky :: kss,
            by rw [variant_keys_list, variant_keys_list, hx, hl, opt_cons_some,
              hy, opt_cons_some],
            by rw [variant_keys_list, variant_keys_list, hy, hl, opt_cons_some,
              hx, opt_cons_some],
            List.Perm.swap kx ky kss⟩
  | trans h1 h2 ih1 ih2 =>
    rcases ih1 with ⟨a1, a2⟩ | ⟨kss, kss', e1, e2, p⟩
    · rcases ih2 with ⟨b1, b2⟩ | ⟨m1, m2, f1, f2, q⟩
      · exact Or.inl ⟨a1, b2⟩
      · rw [a2] at f1
        exact absurd f1 (by simp)
    · rcases ih2 with ⟨b1, b2⟩ | ⟨m1, m2, f1, f2, q⟩
      · rw [b1] at e2
        exact absurd e2 (by simp)
      · rw [e2] at f1
        injection f1 with f1
        subst f1
        exact Or.inr ⟨kss, m2, e1, f2, p.trans q⟩

/-- When every per-row key list counts a key at most once, the sum of the
squared per-row counts equals the total count. -/
theorem diag_sum_eq (key : String) :
    ∀ kss : List (List String), (∀ ks ∈ kss, kcount key ks ≤ 1) →
      (kss.map fun ks => kcount key ks * kcount key ks).sum =
        kcount key (joinAll kss) := by
  intro kss
  induction kss with
  | nil => intro _; simp [joinAll, kcount]
  | cons ks rest ih =>
    intro h
    have h1 : kcount key ks ≤ 1 := h ks (by simp)
    have hsq : kcount key ks * kcount key ks = kcount key ks := by
      have : kcount key ks = 0 ∨ kcount key ks = 1 := by omega
      rcases this with h0 | h0 <;> rw [h0]
    rw [List.map_cons, List.sum_cons, hsq, joinAll, kcount_append,
      ih fun l hl => h l (by simp [hl])]

/-- C9: for every variant whose five parsed domain term-lists are all
non-empty, the number of combinations generated before redundancy
filtering equals the product of the five list lengths; the lists come in
the fixed domain order variant_type, gene_list, conservation, gencode,
region, and there are exactly five of them. -/
theorem combination_count_eq_product (cd : CategoryDomain)
    (gm : String → List String) (v : Variant) (ls : List (List String))
    (h : term_lists cd gm v = some ls) (hne : ∀ l ∈ ls, l ≠ []) :
    ls.length = 5 ∧
      (product_lists ls).length = (ls.map List.length).prod := by
  constructor
  · rcases hg : annotate_gencode cd.gencode gm v with _ | g
    · rw [term_lists, hg] at h
      exact absurd h (by simp)
    · rw [term_lists, hg] at h
      simp only [Option.map_some'] at h
      injection h with h
      subst h
      rfl
  · exact product_lists_length ls

/-- C9 witness: the frameshift SNV row under the default domains. -/
theorem combination_count_eq_product_witness :
    ([["All", "SNV"], ["Any"], ["All"],
       ["Any", "CodingRegion", "FrameshiftRegion", "LoFRegion"], ["Any"]] :
      List (List String)).length = 5 ∧
    (product_lists [["All", "SNV"], ["Any"], ["All"],
       ["Any", "CodingRegion", "FrameshiftRegion", "LoFRegion"], ["Any"]]).length =
      (([["All", "SNV"], ["Any"], ["All"],
         ["Any", "CodingRegion", "FrameshiftRegion", "LoFRegion"], ["Any"]] :
        List (List String)).map List.length).prod :=
  combination_count_eq_product default_domains gm_pc v_fs_snv
    [["All", "SNV"], ["Any"], ["All"],
     ["Any", "CodingRegion", "FrameshiftRegion", "LoFRegion"], ["Any"]]
    (by decide)
    (by intro l hl; fin_cases hl <;> decide)

/-- C1 (amended): `categorize_variant` applies no redundant-pair
suppression at all — every combination generated for a row, including
one whose terms for a registered domain pair match a listed redundant
pair, is aggregated, so its key carries a positive count whenever
aggregation succeeds (and the key-generation itself never raises). -/
theorem no_redundant_suppression (cd : CategoryDomain)
    (gm : String → List String) (vcf : List Variant) (v : Variant)
    (ks : List String) (key : String) (hv : v ∈ vcf)
    (hks : variant_keys cd gm v = some ks) (hkey : key ∈ ks) :
    category_count cd gm vcf key ≠ some 0 := by
  rcases hl : variant_keys_list cd gm vcf with _ | kss
  · simp [category_count, categorize_variant, hl]
  · have hmem := vkl_mem cd gm vcf kss v ks hl hv hks
    have hkj : key ∈ joinAll kss := mem_joinAll key kss ks hmem hkey
    have hpos := kcount_pos key (joinAll kss) hkj
    simp only [category_count, categorize_variant, hl, Option.map_some']
    intro hc
    injection hc with hc
    omega

/-- C1 counterexample: the SNV frameshift row generates the combination
(SNV, Any, All, FrameshiftRegion, Any), whose (variant_type, gencode)
terms ("SNV", "FrameshiftRegion") are a registered redundant pair, yet
count mode aggregates it: the key appears with count 1, so suppression
never happened before incrementing. -/
theorem redundant_pair_counted :
    category_count default_domains gm_pc [v_fs_snv]
        "SNV_Any_All_FrameshiftRegion_Any" = some 1 ∧
      ("SNV", "FrameshiftRegion") ∈ redundant_variant_type_gencode :=
  ⟨by decide, by decide⟩

/-- C1 witness: the redundant-pair key of the SNV frameshift row has a
non-zero count. -/
theorem no_redundant_suppression_witness :
    category_count default_domains gm_pc [v_fs_snv]
      "SNV_Any_All_FrameshiftRegion_Any" ≠ some 0 :=
  no_redundant_suppression default_domains gm_pc [v_fs_snv] v_fs_snv
    ["All_Any_All_Any_Any", "All_Any_All_CodingRegion_Any",
     "All_Any_All_FrameshiftRegion_Any", "All_Any_All_LoFRegion_Any",
     "SNV_Any_All_Any_Any", "SNV_Any_All_CodingRegion_Any",
     "SNV_Any_All_FrameshiftRegion_Any", "SNV_Any_All_LoFRegion_Any"]
    "SNV_Any_All_FrameshiftRegion_Any"
    (by simp) (by decide) (by decide)

/-- C8: count-mode aggregation is order-independent — permuting the rows
of the input table leaves every category's final count (or the failure
outcome) unchanged. -/
theorem count_mode_perm_invariant (cd : CategoryDomain)
    (gm : String → List String) (vcf vcf' : List Variant)
    (h : vcf.Perm vcf') (key : String) :
    category_count cd gm vcf key = category_count cd gm vcf' key := by
  rcases vkl_perm cd gm h with ⟨h1, h2⟩ | ⟨kss, kss', e1, e2, p⟩
  · simp [category_count, categorize_variant, h1, h2]
  · simp only [category_count, categorize_variant, e1, e2, Option.map_some']
    have hsum := (List.Perm.map (kcount key) p).sum_eq
    rw [kcount_joinAll, kcount_joinAll, hsum]

/-- C8 witness: swapping two rows leaves the catch-all category's count
unchanged. -/
theorem count_mode_perm_invariant_witness :
    category_count default_domains gm_empty [v_plain, v_plain_indel]
        "All_Any_All_Any_Any" =
      category_count default_domains gm_empty [v_plain_indel, v_plain]
        "All_Any_All_Any_Any" :=
  count_mode_perm_invariant default_domains gm_empty
    [v_plain, v_plain_indel] [v_plain_indel, v_plain]
    (List.Perm.swap v_plain_indel v_plain []) "All_Any_All_Any_Any"

/-- C7 (amended): the diagonal co-occurrence entry equals the count-mode
total provided every row's joined key list is duplicate-free (which holds
whenever term names make the underscore join injective); with colliding
term names a row can generate the same key twice and the diagonal becomes
the sum of squared per-row counts instead. -/
theorem diag_eq_count_of_nodup_keys (cd : CategoryDomain)
    (gm : String → List String) (vcf : List Variant) (key : String)
    (hnd : ∀ v ∈ vcf, ∀ ks, variant_keys cd gm v = some ks → ks.Nodup) :
    category_diag cd gm vcf key = category_count cd gm vcf key := by
  rcases hl : variant_keys_list cd gm vcf with _ | kss
  · simp [category_diag, category_count, get_intersection, categorize_variant,
      hl]
  · simp only [category_diag, category_count, get_intersection,
      categorize_variant, hl, Option.map_some']
    congr 1
    apply diag_sum_eq
    intro ks hks
    rcases vkl_mem_rev cd gm vcf kss hl ks hks with ⟨v, hv, hvk⟩
    exact kcount_le_one key ks (hnd v hv ks hvk)

/-- C7 counterexample: with the configured term names "A", "A_B" in the
gene-list domain and "B_All" in the conservation domain, the combinations
(All, A, B_All, Any, Any) and (All, A_B, All, Any, Any) of one row both
join to the key "All_A_B_All_Any_Any"; the diagonal entry is 4 while the
count-mode total is 2, refuting the unconditional diagonal equality. -/
theorem diag_ne_count_on_collision :
    category_diag cd_clash gm_clash [v_clash] "All_A_B_All_Any_Any" =
        some 4 ∧
      category_count cd_clash gm_clash [v_clash] "All_A_B_All_Any_Any" =
        some 2 ∧
      category_diag cd_clash gm_clash [v_clash] "All_A_B_All_Any_Any" ≠
        category_count cd_clash gm_clash [v_clash] "All_A_B_All_Any_Any" :=
  ⟨by decide, by decide, by decide⟩

/-- C7 witness: the frameshift SNV row's key lists are duplicate-free, so
diagonal and count agree there. -/
theorem diag_eq_count_witness :
    category_diag default_domains gm_pc [v_fs_snv]
        "SNV_Any_All_FrameshiftRegion_Any" =
      category_count default_domains gm_pc [v_fs_snv]
        "SNV_Any_All_FrameshiftRegion_Any" :=
  diag_eq_count_of_nodup_keys default_domains gm_pc [v_fs_snv]
    "SNV_Any_All_FrameshiftRegion_Any"
    (by
      intro v hv ks hks
      rw [List.mem_singleton] at hv
      subst hv
      have he : variant_keys default_domains gm_pc v_fs_snv = some
          ["All_Any_All_Any_Any", "All_Any_All_CodingRegion_Any",
           "All_Any_All_FrameshiftRegion_Any", "All_Any_All_LoFRegion_Any",
           "SNV_Any_All_Any_Any", "SNV_Any_All_CodingRegion_Any",
           "SNV_Any_All_FrameshiftRegion_Any", "SNV_Any_All_LoFRegion_Any"] :=
        by decide
      rw [he] at hks
      injection hks with hks
      subst hks
      decide)

/-- C3: in the conservation domain (catch-all "All" first, as built by
configuration) and likewise the custom-region domain (catch-all "Any"
first), a non-catch-all term's bit is set in the classifier's
AnnotationInt exactly when the term's externally supplied 0/1 indicator
column is non-zero for the row — each bit depends only on its own column,
so the classifier is purely additive — and the catch-all bit is always
set. -/
theorem additive_indicator_bits (crest rrest : List String) (v : Variant)
    (t u : String)
    (hca : "All" ∉ crest) (ht : t ∈ crest)
    (hcb : ∀ s ∈ crest, v.scores s ≤ 1)
    (hra : "Any" ∉ rrest) (hu : u ∈ rrest)
    (hrb : ∀ s ∈ rrest, v.regions s ≤ 1) :
    ((annotate_conservation ("All" :: crest) v).testBit
        (idx_of t ("All" :: crest)) = true ↔ v.scores t ≠ 0) ∧
    (annotate_conservation ("All" :: crest) v).testBit 0 = true ∧
    ((annotate_region ("Any" :: rrest) v).testBit
        (idx_of u ("Any" :: rrest)) = true ↔ v.regions u ≠ 0) ∧
    (annotate_region ("Any" :: rrest) v).testBit 0 = true := by
  have hAllt : "All" ≠ t := fun e => hca (e ▸ ht)
  have hAnyu : "Any" ≠ u := fun e => hra (e ▸ hu)
  refine ⟨?_, ?_, ?_, ?_⟩
  · rw [annotate_conservation_head, idx_of_cons_ne "All" t crest hAllt,
      testBit_two_mul_add_one]
    have hb : ∀ s ∈ crest, (if s = "All" then 0 else v.scores s) ≤ 1 := by
      intro s hs
      by_cases h : s = "All"
      · simp [h]
      · rw [if_neg h]
        exact hcb s hs
    have hlt := idx_of_lt_length t crest ht
    rw [bitsVal_testBit _ crest hb (idx_of t crest) hlt,
      get_idx_of t crest ht hlt, if_neg (fun e => hAllt e.symm)]
    have := hcb t ht
    omega
  · rw [annotate_conservation_head]
    exact testBit_zero_of_odd _ (by omega)
  · rw [annotate_region_head, idx_of_cons_ne "Any" u rrest hAnyu,
      testBit_two_mul_add_one]
    have hb : ∀ s ∈ rrest, (if s = "Any" then 0 else v.regions s) ≤ 1 := by
      intro s hs
      by_cases h : s = "Any"
      · simp [h]
      · rw [if_neg h]
        exact hrb s hs
    have hlt := idx_of_lt_length u rrest hu
    rw [bitsVal_testBit _ rrest hb (idx_of u rrest) hlt,
      get_idx_of u rrest hu hlt, if_neg (fun e => hAnyu e.symm)]
    have := hrb u hu
    omega
  · rw [annotate_region_head]
    exact testBit_zero_of_odd _ (by omega)

/-- C3 witness: a row flagged for phyloP46way and EncodeDNase. -/
theorem additive_indicator_bits_witness :
    ((annotate_conservation ("All" :: ["phyloP46way"]) v_cons).testBit
        (idx_of "phyloP46way" ("All" :: ["phyloP46way"])) = true ↔
      v_cons.scores "phyloP46way" ≠ 0) ∧
    (annotate_conservation ("All" :: ["phyloP46way"]) v_cons).testBit 0 =
      true ∧
    ((annotate_region ("Any" :: ["EncodeDNase"]) v_cons).testBit
        (idx_of "EncodeDNase" ("Any" :: ["EncodeDNase"])) = true ↔
      v_cons.regions "EncodeDNase" ≠ 0) ∧
    (annotate_region ("Any" :: ["EncodeDNase"]) v_cons).testBit 0 = true :=
  additive_indicator_bits ["phyloP46way"] ["EncodeDNase"] v_cons
    "phyloP46way" "EncodeDNase"
    (by decide) (by decide)
    (by intro s hs; rw [List.mem_singleton] at hs; subst hs; decide)
    (by decide) (by decide)
    (by intro s hs; rw [List.mem_singleton] at hs; subst hs; decide)

/-- C6: for every row and every domain the catch-all term's bit (bit 0:
"All" or "Any" heads each domain list, settings.py keeping the fixed
variant_type and gencode lists and configuration appending terms after
the catch-all for the other three) is set in the resulting AnnotationInt;
for the GENCODE domain this includes rows whose coding bits were cleared
by reclassification, whenever the classifier returns at all. The
gene-list membership sets never contain the catch-all name itself. -/
theorem catch_all_bit_always_set (cd : CategoryDomain)
    (gm : String → List String) (v : Variant)
    (crest grest rrest : List String) (n : Nat)
    (hvt : cd.variant_type = default_variant_type)
    (hco : cd.conservation = "All" :: crest)
    (hgl : cd.gene_list = "Any" :: grest)
    (hgc : cd.gencode = default_gencode)
    (hre : cd.region = "Any" :: rrest)
    (hany : "Any" ∉ gm (acting_gene v))
    (hn : annotate_gencode cd.gencode gm v = some n) :
    (annotate_variant_type cd.variant_type v).testBit 0 = true ∧
    (annotate_conservation cd.conservation v).testBit 0 = true ∧
    (annotate_gene_list cd.gene_list gm v).testBit 0 = true ∧
    n.testBit 0 = true ∧
    (annotate_region cd.region v).testBit 0 = true := by
  rw [hvt, hco, hgl, hre]
  rw [hgc] at hn
  refine ⟨?_, ?_, ?_, ?_, ?_⟩
  · unfold annotate_variant_type
    by_cases h : (v.ref.length == 1 && v.alt.length == 1) = true
    · rw [if_pos h]
      decide
    · rw [if_neg h]
      decide
  · rw [annotate_conservation_head]
    exact testBit_zero_of_odd _ (by omega)
  · rw [annotate_gene_list_head grest gm v hany]
    exact testBit_zero_of_odd _ (by omega)
  · have hmem := annotate_gencode_cases gm v n hn
    simp only [List.mem_cons, List.not_mem_nil, or_false] at hmem
    rcases hmem with rfl | rfl | rfl | rfl | rfl | rfl | rfl | rfl | rfl |
      rfl | rfl | rfl | rfl | rfl | rfl
    all_goals decide
  · rw [annotate_region_head]
    exact testBit_zero_of_odd _ (by omega)

/-- C6 witness: the default domains, an intron row and an empty gene
matrix (the GENCODE integer is 1281, its coding bits cleared). -/
theorem catch_all_bit_always_set_witness :
    (annotate_variant_type default_domains.variant_type v_intron).testBit 0 =
      true ∧
    (annotate_conservation default_domains.conservation v_intron).testBit 0 =
      true ∧
    (annotate_gene_list default_domains.gene_list gm_empty v_intron).testBit
      0 = true ∧
    (1281 : Nat).testBit 0 = true ∧
    (annotate_region default_domains.region v_intron).testBit 0 = true :=
  catch_all_bit_always_set default_domains gm_empty v_intron [] [] [] 1281
    rfl rfl rfl rfl rfl (by simp [gm_empty]) (by decide)

/-- C10: the GENCODE AnnotationInt never carries the CodingRegion bit
(bit 1) and the NoncodingRegion bit (bit 8) together — the coding and
non-coding paths are mutually exclusive because reclassification clears
the accumulated coding bits first. -/
theorem coding_noncoding_exclusive (gm : String → List String) (v : Variant)
    (n : Nat) (h : annotate_gencode default_gencode gm v = some n) :
    ¬(n.testBit 1 = true ∧ n.testBit 8 = true) := by
  have hmem := annotate_gencode_cases gm v n h
  simp only [List.mem_cons, List.not_mem_nil, or_false] at hmem
  rcases hmem with rfl | rfl | rfl | rfl | rfl | rfl | rfl | rfl | rfl |
    rfl | rfl | rfl | rfl | rfl | rfl
  all_goals decide

/-- C10 witness: the intron row's integer 1281 has bit 8 but not bit 1. -/
theorem coding_noncoding_exclusive_witness :
    ¬((1281 : Nat).testBit 1 = true ∧ (1281 : Nat).testBit 8 = true) :=
  coding_noncoding_exclusive gm_empty v_intron 1281 (by decide)

/-- Coding-path outcomes when the MPC guard short-circuits to "not
damaging" (the float call is never reached). -/
theorem gencode_core_mpc_absent (gm : String → List String) (v : Variant)
    (hmd : mpc_damaging v.mpc = some false) :
    ∃ p, gencode_core default_gencode gm v = some p ∧
      p ∈ [(2, true), (34, true), (38, true), (130, true), (10, true),
        (18, true), (0, false)] := by
  unfold gencode_core
  repeat' split
  all_goals first
    | exact ⟨_, rfl, by decide⟩
    | (rw [hmd]; exact ⟨_, rfl, by decide⟩)

/-- C2 (amended): a missing deleteriousness score — the empty string or
the literal "NA" — is treated as absent: the GENCODE classifier still
classifies the row and leaves the DamagingMissenseRegion bit clear, and
the other four domain classifiers never read the MPC field at all. (A
malformed non-empty, non-"NA" string instead raises; see the
counterexample.) -/
theorem mpc_missing_absent (gm : String → List String) (v : Variant)
    (m : String) (dvt dco dgl dre : List String)
    (hm : v.mpc = "" ∨ v.mpc = "NA") :
    (annotate_gencode default_gencode gm v).map
        (fun n => n.testBit (idx_of "DamagingMissenseRegion" default_gencode)) =
      some false ∧
    annotate_variant_type dvt { v with mpc := m } =
      annotate_variant_type dvt v ∧
    annotate_conservation dco { v with mpc := m } =
      annotate_conservation dco v ∧
    annotate_gene_list dgl gm { v with mpc := m } =
      annotate_gene_list dgl gm v ∧
    annotate_region dre { v with mpc := m } = annotate_region dre v := by
  refine ⟨?_, rfl, rfl, rfl, rfl⟩
  have hmd : mpc_damaging v.mpc = some false := by
    rcases hm with h | h <;> rw [h] <;> decide
  rcases gencode_core_mpc_absent gm v hmd with ⟨p, hp, hpin⟩
  simp only [annotate_gencode, hp, Option.map_some']
  simp only [List.mem_cons, List.not_mem_nil, or_false] at hpin
  rcases hpin with rfl | rfl | rfl | rfl | rfl | rfl | rfl
  all_goals first
    | (rw [gencode_noncoding_coding]; decide)
    | (have hv := gencode_noncoding_cases gm v
       simp only [List.mem_cons, List.not_mem_nil, or_false] at hv
       rcases hv with h | h | h | h | h | h | h | h <;> rw [h] <;> decide)

/-- C2 counterexample: a malformed MPC string ("abc": non-empty, not
"NA", unparsable as a number) reaches Python's float call, which raises,
so the GENCODE classifier fails the row instead of treating the score as
absent. -/
theorem malformed_mpc_raises :
    annotate_gencode default_gencode gm_pc v_mis_bad = none := by decide

/-- C2 witness: the missense row with an empty MPC field classifies with
the damaging bit clear, and the other classifiers ignore the field. -/
theorem mpc_missing_absent_witness :
    (annotate_gencode default_gencode gm_pc v_mis_nompc).map
        (fun n => n.testBit (idx_of "DamagingMissenseRegion" default_gencode)) =
      some false ∧
    annotate_variant_type default_variant_type
        { v_mis_nompc with mpc := "9" } =
      annotate_variant_type default_variant_type v_mis_nompc ∧
    annotate_conservation default_conservation
        { v_mis_nompc with mpc := "9" } =
      annotate_conservation default_conservation v_mis_nompc ∧
    annotate_gene_list default_gene_list gm_pc
        { v_mis_nompc with mpc := "9" } =
      annotate_gene_list default_gene_list gm_pc v_mis_nompc ∧
    annotate_region default_region { v_mis_nompc with mpc := "9" } =
      annotate_region default_region v_mis_nompc :=
  mpc_missing_absent gm_pc v_mis_nompc "9" default_variant_type
    default_conservation default_gene_list default_region (Or.inl rfl)

/-- C4 (amended): a row that ends up non-coding gets NoncodingRegion plus
at most one more specific sub-region bit, chosen by first match in the
fixed order UTR marker, upstream gene, intron, splice region,
downstream gene or intergenic, then — only when the acting gene is not
protein-coding — lincRNA membership or the other-transcript fallback; a
reclassified protein-coding gene matching none of the five consequence
patterns gets no sub-region bit at all. Formally: the annotation integer
is exactly catch-all + NoncodingRegion + noncoding_sub. -/
theorem noncoding_subregion_rule (gm : String → List String) (v : Variant)
    (n : Nat) (h : annotate_gencode default_gencode gm v = some n)
    (hnc : n.testBit 8 = true) :
    n = 2 ^ 0 + 2 ^ 8 + noncoding_sub gm v := by
  unfold annotate_gencode at h
  rcases hc : gencode_core default_gencode gm v with _ | p
  · rw [hc] at h
    exact absurd h (by simp)
  · rw [hc] at h
    simp only [Option.map_some'] at h
    injection h with h
    have hp := gencode_core_cases gm v p hc
    simp only [List.mem_cons, List.not_mem_nil, or_false] at hp
    rcases hp with rfl | rfl | rfl | rfl | rfl | rfl | rfl | rfl
    all_goals try (rw [gencode_noncoding_coding] at h)
    all_goals subst h
    all_goals try (exact absurd hnc (by decide))
    unfold gencode_noncoding_step noncoding_sub
    repeat' split
    all_goals first | decide | simp_all

/-- C4 counterexample: on a protein-coding gene reclassified to
non-coding whose consequence ("mature_miRNA_variant") matches none of the
five sub-region patterns, the classifier yields 257 = Any + NoncodingRegion:
no specific sub-region bit accompanies NoncodingRegion, contradicting
"exactly one more specific sub-region bit". -/
theorem reclassified_no_subregion :
    annotate_gencode default_gencode gm_pc v_misc = some 257 ∧
      extract_sublist_by_int default_gencode 257 = ["Any", "NoncodingRegion"] :=
  ⟨by decide, by decide⟩

/-- C4 witness: the intron row under an empty gene matrix carries
exactly the intron sub-region contribution. -/
theorem noncoding_subregion_rule_witness :
    (1281 : Nat) = 2 ^ 0 + 2 ^ 8 + noncoding_sub gm_empty v_intron :=
  noncoding_subregion_rule gm_empty v_intron 1281 (by decide) (by decide)

/-- C5: the spec's concrete Indel frameshift scenario: reference "AT",
alternate "A", consequence "frameshift_variant", LoF "HC" with empty
flag, protein-coding gene. The variant-type integer is 5 = {All, Indel},
the GENCODE integer is 39 = {Any, CodingRegion, FrameshiftRegion,
LoFRegion}; ("Indel", "FrameshiftRegion") is not in the default
redundant set while ("SNV", "FrameshiftRegion") is, and the combination
survives into the count-mode result with count 1. -/
theorem frameshift_indel_scenario :
    annotate_variant_type default_variant_type v_fs_indel = 5 ∧
      extract_sublist_by_int default_variant_type 5 = ["All", "Indel"] ∧
      annotate_gencode default_gencode gm_pc v_fs_indel = some 39 ∧
      extract_sublist_by_int default_gencode 39 =
        ["Any", "CodingRegion", "FrameshiftRegion", "LoFRegion"] ∧
      ("Indel", "FrameshiftRegion") ∉ redundant_variant_type_gencode ∧
      ("SNV", "FrameshiftRegion") ∈ redundant_variant_type_gencode ∧
      category_count default_domains gm_pc [v_fs_indel]
        "Indel_Any_All_FrameshiftRegion_Any" = some 1 :=
  ⟨by decide, by decide, by decide, by decide, by decide, by decide,
    by decide⟩
